import Mathlib

/-!
Verification of the response-latency inference engine of the
Chat-Conversation-Analyzer repository (src/modules/latency.py).

The embedding models the engine over explicit lists:

* A pandas row of the input frame becomes a `ChatEvent`.  The `timestamp`
  column is modelled in its post-coercion form: `to_datetime(..., errors coerce)`
  turns every unparseable entry into NaT, so a timestamp is `Option Int`
  (seconds; `none` is NaT).  `message` is `Option String` (`none` is Python
  `None`).
* `df.sort_values` on the column list `[thread_id, timestamp]` is the stable
  lexicographic sort with NaT placed last (pandas default `na_position`), so we
  sort the index-tagged rows by the total key
  (thread_id, timestamp-with-NaT-last, original row position).
* `groupby("thread_id")` applied to a frame already sorted by `thread_id`
  yields, for each distinct id, the contiguous run of rows with that id, which
  equals the filter of the sorted list by that id; group enumeration order only
  affects the concatenation order of the per-group outputs.
* The per-group loop (lines 52-84 of latency.py) is `pairStep`/`pairRecords`.
* The full function `_compute_assistant_latencies` (empty-input early return,
  timestamp coercion via a `df["timestamp"]` access that raises `KeyError` when
  the column is absent, then the missing-column `ValueError` check) is the
  `Except`-valued wrapper over an `EventTable` carrying its column list.
* `_format_seconds` works over `Option ℚ`: `none` stands for an input on which
  `float(s)` raises.  Python `round` and the `:.0f`/`:.2f` format specifiers
  use round-half-to-even, modelled by `roundHalfEven`.
* The correlation block of `show_latency_dashboard` (lines 442-487) is
  `correlationStep`; pandas `Series.quantile` (linear interpolation) is
  `quantile`, and the IQR mask (lines 452-462) is `iqrFilter`.  A pandas
  `corr()` result is NaN exactly when fewer than 2 points or a zero-variance
  column is involved; `pearsonIsNaN` computes that condition (the numeric value
  of a defined correlation is irrelevant to every claim, so only NaN-ness is
  carried).
-/

/-- One row of the input event table: a chat message.
Timestamps are in their post-`to_datetime` form (`none` = NaT). -/
structure ChatEvent where
  thread_id : String
  timestamp : Option Int
  role : String
  message : Option String
  region : String
deriving DecidableEq, Repr

/-- One row of the output of `_compute_assistant_latencies`.
`latency_timedelta` is the same delta as `latency_seconds` (the source stores
the timedelta object alongside its `total_seconds()`), so it is not repeated. -/
structure LatencyRecord where
  thread_id : String
  region : String
  user_timestamp : Int
  assistant_timestamp : Int
  latency_seconds : Int
  user_message : String
  assistant_message : String
  user_char_len : Nat
  user_word_len : Nat
  assistant_char_len : Nat
deriving DecidableEq, Repr

/-- `str(m) if m is not None else ""` for an optional message. -/
def strOrEmpty : Option String → String
  | some m => m
  | none => ""

/-- Whitespace as used by Python `str.split()` (ASCII range). -/
def isPySpace (c : Char) : Bool := c.toNat = 32 || (9 ≤ c.toNat && c.toNat ≤ 13)

/-- Count of maximal non-whitespace runs; the `Bool` says whether the previous
character was inside a word. -/
def countWordsAux : List Char → Bool → Nat
  | [], _ => 0
  | c :: cs, inw =>
    if isPySpace c then countWordsAux cs false
    else (if inw then 0 else 1) + countWordsAux cs true

/-- `len(s.split())` in Python: number of whitespace-separated words. -/
def pyWordCount (s : String) : Nat := countWordsAux s.data false

/-- The LatencyRecord row appended at lines 69-83 of latency.py, built from the
thread id, the group's display region, the tracked user turn and the assistant
event's timestamp and message. -/
def mkRecord (t reg : String) (tu ta : Int) (umsg amsg : Option String) : LatencyRecord :=
  { thread_id := t
    region := reg
    user_timestamp := tu
    assistant_timestamp := ta
    latency_seconds := ta - tu
    user_message := strOrEmpty umsg
    assistant_message := strOrEmpty amsg
    user_char_len := (strOrEmpty umsg).length
    user_word_len := pyWordCount (strOrEmpty umsg)
    assistant_char_len := (strOrEmpty amsg).length }

/-- Loop state of lines 53-54: `last_user_ts` / `last_user_msg`.  The outer
`Option` is Python `None` (no user turn seen); the inner `Option Int` is the
stored timestamp, which may itself be NaT. -/
structure PairState where
  lastUserTs : Option (Option Int)
  lastUserMsg : Option (Option String)
deriving DecidableEq, Repr

/-- Initial loop state (lines 53-54). -/
def initState : PairState := ⟨none, none⟩

/-- One iteration of the per-group loop (lines 56-84): a `user` event
overwrites the tracked turn; an `assistant` event emits a record iff a user
turn is tracked, both timestamps are non-NaT and `0 ≤ delta ≤ 24h`
(86400 seconds); other roles change nothing.  The tracked turn is never
cleared. -/
def pairStep (t reg : String) (st : PairState) (e : ChatEvent) :
    PairState × Option LatencyRecord :=
  if e.role = "user" then
    (⟨some e.timestamp, some e.message⟩, none)
  else if e.role = "assistant" then
    match st.lastUserTs, e.timestamp with
    | some (some tu), some ta =>
      if 0 ≤ ta - tu ∧ ta - tu ≤ 86400 then
        (st, some (mkRecord t reg tu ta st.lastUserMsg.join e.message))
      else (st, none)
    | _, _ => (st, none)
  else (st, none)

/-- The whole per-group loop: records appended over the sorted group rows. -/
def pairRecords (t reg : String) (st : PairState) : List ChatEvent → List LatencyRecord
  | [] => []
  | e :: es =>
    match pairStep t reg st e with
    | (st2, none) => pairRecords t reg st2 es
    | (st2, some r) => r :: pairRecords t reg st2 es

/-- Strict lexicographic order on character lists via code points (the string
order used to sort `thread_id` keys). -/
def charListLt : List Char → List Char → Bool
  | [], [] => false
  | [], _ :: _ => true
  | _ :: _, [] => false
  | a :: as, b :: bs =>
    if a.toNat < b.toNat then true
    else if b.toNat < a.toNat then false
    else charListLt as bs

/-- Strict order on strings via their character lists. -/
def strLtB (a b : String) : Bool := charListLt a.data b.data

/-- Strict order on optional timestamps with NaT greater than every valid
timestamp (pandas `na_position` "last"). -/
def tsLtB : Option Int → Option Int → Bool
  | some a, some b => decide (a < b)
  | some _, none => true
  | none, _ => false

/-- Total sort key of `df.sort_values` on `[thread_id, timestamp]` applied to
index-tagged rows: thread id, then timestamp (NaT last), then original row
position — the last component encodes the stability of the pandas lexsort. -/
def rowLE (p q : Nat × ChatEvent) : Bool :=
  if p.2.thread_id = q.2.thread_id then
    if p.2.timestamp = q.2.timestamp then decide (p.1 ≤ q.1)
    else tsLtB p.2.timestamp q.2.timestamp
  else strLtB p.2.thread_id q.2.thread_id

/-- `rowLE` as a decidable relation for `List.insertionSort`. -/
def rowRel (p q : Nat × ChatEvent) : Prop := rowLE p q = true

/-- Decidability of `rowRel`. -/
def rowRelDec : DecidableRel rowRel :=
  fun p q => inferInstanceAs (Decidable (rowLE p q = true))

/-- Line 49: sort the rows by (thread_id, timestamp), stably. -/
def sortEvents (rows : List ChatEvent) : List ChatEvent :=
  (@List.insertionSort _ rowRel rowRelDec rows.enum).map (fun p => p.2)

/-- The distinct thread ids of the sorted frame — the groupby keys. -/
def threadIds (s : List ChatEvent) : List String :=
  (s.map (fun e => e.thread_id)).dedup

/-- Lines 52-86 for one group `g`: the display region is the region of the
first row of the sorted group (`g["region"].iloc[0]`), and the loop starts
from the empty state. -/
def recordsOfGroup (t : String) : List ChatEvent → List LatencyRecord
  | [] => []
  | e :: es => pairRecords t e.region initState (e :: es)

/-- Lines 48-86: sort, group by thread id (groups of the thread-sorted frame
are its per-id filters), run the pairing loop per group and concatenate. -/
def computeLatenciesCore (rows : List ChatEvent) : List LatencyRecord :=
  (threadIds (sortEvents rows)).flatMap
    (fun t => recordsOfGroup t ((sortEvents rows).filter (fun e => e.thread_id == t)))

/-- The errors `_compute_assistant_latencies` can raise: the pandas `KeyError`
from a missing-column access, or the explicit `ValueError` of lines 45-46
listing the missing required columns. -/
inductive LatencyError where
  | keyError (col : String)
  | valueError (missing : List String)
deriving DecidableEq, Repr

/-- The input frame together with its column list; `rows` carry the cell
values that the engine reads once the schema check has passed. -/
structure EventTable where
  cols : List String
  rows : List ChatEvent
deriving Repr

/-- `expected_cols` of line 43 (as a list; the source uses a set). -/
def requiredCols : List String := ["thread_id", "timestamp", "role", "message", "region"]

/-- Lines 20-86 of latency.py: empty input returns the empty frame before
anything else; then `df["timestamp"]` is read for dtype-coercion (a `KeyError`
when that column is absent); then the missing-column `ValueError` of lines
43-46; then the sorted, grouped pairing loop. -/
def _compute_assistant_latencies (tbl : EventTable) : Except LatencyError (List LatencyRecord) :=
  if tbl.rows.isEmpty then .ok []
  else if !(tbl.cols.contains "timestamp") then .error (.keyError "timestamp")
  else
    let missing := requiredCols.filter (fun c => !(tbl.cols.contains c))
    if missing.isEmpty then .ok (computeLatenciesCore tbl.rows)
    else .error (.valueError missing)

/-- Python `round` / `:.0f` rounding: round half to even. -/
def roundHalfEven (q : ℚ) : Int :=
  if q - ⌊q⌋ < 1 / 2 then ⌊q⌋
  else if 1 / 2 < q - ⌊q⌋ then ⌊q⌋ + 1
  else if ⌊q⌋ % 2 = 0 then ⌊q⌋ else ⌊q⌋ + 1

/-- Two-digit rendering of the fractional part of a `:.2f` format. -/
def pad2 (n : Int) : String := if n < 10 then "0" ++ toString n else toString n

/-- Lines 89-103 (`_format_seconds`).  The argument is `none` when `float(s)`
raises (non-numeric input), which returns the placeholder.  Everything else
follows the source branch for branch; note the first branch `s < 1` also
captures every negative input. -/
def _format_seconds : Option ℚ → String
  | none => "-"
  | some s =>
    if s < 1 then toString (roundHalfEven (s * 1000)) ++ " ms"
    else if s < 60 then
      toString (roundHalfEven (s * 100) / 100) ++ "." ++ pad2 (roundHalfEven (s * 100) % 100) ++ " s"
    else
      let n := roundHalfEven s
      let mins := n / 60
      let secs := n % 60
      if mins < 60 then toString mins ++ "m " ++ toString secs ++ "s"
      else toString (mins / 60) ++ "h " ++ toString (mins % 60) ++ "m " ++ toString secs ++ "s"

/-- Modelled from the spec (§4.2 `format_duration`), amended only where the
code forces it: the millisecond branch takes every `s < 1` including negative
inputs (the spec's "negative input returns the placeholder" does not hold of
the code), and the minute/second versus hour split happens at a rounded total
of 3600 seconds rather than at raw `s < 3600`.  Non-numeric input (`none`)
returns the placeholder. -/
def format_duration_spec : Option ℚ → String
  | none => "-"
  | some s =>
    if s < 1 then toString (roundHalfEven (s * 1000)) ++ " ms"
    else if s < 60 then
      toString (roundHalfEven (s * 100) / 100) ++ "." ++ pad2 (roundHalfEven (s * 100) % 100) ++ " s"
    else if roundHalfEven s < 3600 then
      toString (roundHalfEven s / 60) ++ "m " ++ toString (roundHalfEven s % 60) ++ "s"
    else
      toString (roundHalfEven s / 60 / 60) ++ "h " ++ toString (roundHalfEven s / 60 % 60) ++ "m "
        ++ toString (roundHalfEven s % 60) ++ "s"

/-- A per-thread aggregate of the correlation view: total message count and
mean latency of the thread (§3 PerThreadAggregate; lines 435-440). -/
structure ThreadAgg where
  thread_id : String
  messages_count : Nat
  avg_latency_seconds : ℚ
deriving DecidableEq, Repr

/-- Ascending sort of rational values (used inside `quantile`). -/
def sortRat (xs : List ℚ) : List ℚ := List.insertionSort (· ≤ ·) xs

/-- pandas `Series.quantile(p)` with the default linear interpolation:
position `h = p·(n-1)` in the sorted values, interpolating between the
neighbouring order statistics. -/
def quantile (xs : List ℚ) (p : ℚ) : ℚ :=
  let s := sortRat xs
  let h : ℚ := p * ((s.length : ℚ) - 1)
  let i := (⌊h⌋).toNat
  let lo := s.getD i 0
  let hi := s.getD (i + 1) lo
  lo + (h - (⌊h⌋ : ℚ)) * (hi - lo)

/-- Lines 452-462: the IQR mask over `avg_latency_seconds`.  Returns the kept
aggregates and the count of dropped ones (`(~mask).sum()`); the block is
skipped (nothing removed) when the input is empty. -/
def iqrFilter (aggs : List ThreadAgg) : List ThreadAgg × Nat :=
  if aggs.isEmpty then (aggs, 0)
  else
    let vals := aggs.map (fun a => a.avg_latency_seconds)
    let q1 := quantile vals (1 / 4)
    let q3 := quantile vals (3 / 4)
    let iqr := q3 - q1
    let lower := q1 - 3 / 2 * iqr
    let upper := q3 + 3 / 2 * iqr
    let kept := aggs.filter
      (fun a => decide (lower ≤ a.avg_latency_seconds) && decide (a.avg_latency_seconds ≤ upper))
    let removed := (aggs.filter
      (fun a => !(decide (lower ≤ a.avg_latency_seconds) && decide (a.avg_latency_seconds ≤ upper)))).length
    (kept, removed)

/-- The lower IQR fence `Q1 - 1.5·IQR` of a value list. -/
def iqrLower (vals : List ℚ) : ℚ :=
  quantile vals (1 / 4) - 3 / 2 * (quantile vals (3 / 4) - quantile vals (1 / 4))

/-- The upper IQR fence `Q3 + 1.5·IQR` of a value list. -/
def iqrUpper (vals : List ℚ) : ℚ :=
  quantile vals (3 / 4) + 3 / 2 * (quantile vals (3 / 4) - quantile vals (1 / 4))

/-- Whether `DataFrame.corr()` over these (messages_count, avg_latency) points
yields NaN in the off-diagonal cell: fewer than two points, or a
zero-variance column.  (The numeric value of a defined correlation involves a
square root and is not inspected by any claim.) -/
def pearsonIsNaN (pts : List (ℚ × ℚ)) : Bool :=
  if pts.length < 2 then true
  else
    let n : ℚ := (pts.length : ℚ)
    let mx := (pts.map (fun p => p.1)).sum / n
    let my := (pts.map (fun p => p.2)).sum / n
    let sxx := (pts.map (fun p => (p.1 - mx) * (p.1 - mx))).sum
    let syy := (pts.map (fun p => (p.2 - my) * (p.2 - my))).sum
    decide (sxx = 0) || decide (syy = 0)

/-- Outcome of the correlation block of `show_latency_dashboard`
(lines 442-487): the "not enough data" early return, the "all points are
outliers" early return, or the shown scatter with its removed-count and the
NaN-ness of the displayed Pearson correlation. -/
inductive CorrOutcome where
  | noThreads
  | allOutliers
  | shown (removed : Nat) (surviving : List ThreadAgg) (corrNaN : Bool)
deriving DecidableEq, Repr

/-- Lines 442-487: empty per-thread frame returns early; else the optional IQR
filter runs; an emptied frame returns early; else the correlation is computed
over the surviving points and displayed. -/
def correlationStep (perThread : List ThreadAgg) (excludeOutliers : Bool) : CorrOutcome :=
  if perThread.isEmpty then .noThreads
  else
    let fr := if excludeOutliers then iqrFilter perThread else (perThread, 0)
    if fr.1.isEmpty then .allOutliers
    else .shown fr.2 fr.1
      (pearsonIsNaN (fr.1.map (fun a => ((a.messages_count : ℚ), a.avg_latency_seconds))))

/-- No two distinct events of one thread carry the same valid timestamp: the
proviso under which the stable sort (and hence the output) is insensitive to
the input row order. -/
def DistinctTS (rows : List ChatEvent) : Prop :=
  ∀ x ∈ rows, ∀ y ∈ rows,
    x.thread_id = y.thread_id → x.timestamp = y.timestamp → x.timestamp ≠ none → x = y

/-- Weak timestamp order on events (equal, or strictly earlier with NaT last);
the order in which any sorted thread group is arranged. -/
def tsLe (e1 e2 : ChatEvent) : Prop :=
  e1.timestamp = e2.timestamp ∨ tsLtB e1.timestamp e2.timestamp = true

/-- An event with a valid (non-NaT) timestamp. -/
def hasTs (e : ChatEvent) : Bool := e.timestamp.isSome

/-- State of the pairing loop after consuming a list of events. -/
def stateAfter (t reg : String) (st : PairState) (l : List ChatEvent) : PairState :=
  l.foldl (fun s e => (pairStep t reg s e).1) st

/-! Concrete instances used by the boundary examples, counterexamples and
witnesses below. -/

/-- A thread with one user turn answered 5 seconds later. -/
def exC1 : List ChatEvent :=
  [⟨"T", some 0, "user", some "hi", "R"⟩, ⟨"T", some 5, "assistant", some "yo", "R"⟩]

/-- A user turn answered exactly 24 hours later. -/
def exC2a : EventTable :=
  ⟨requiredCols, [⟨"T", some 0, "user", some "q", "R"⟩, ⟨"T", some 86400, "assistant", some "a", "R"⟩]⟩

/-- A user turn answered 24 hours + 1 second later. -/
def exC2b : EventTable :=
  ⟨requiredCols, [⟨"T", some 0, "user", some "q", "R"⟩, ⟨"T", some 86401, "assistant", some "a", "R"⟩]⟩

/-- An assistant reply timestamped 50 seconds before its user turn. -/
def exC2c : EventTable :=
  ⟨requiredCols, [⟨"T", some 100, "user", some "q", "R"⟩, ⟨"T", some 50, "assistant", some "a", "R"⟩]⟩

/-- A loop state tracking a valid user turn at time 0. -/
def stC2 : PairState := ⟨some (some 0), some (some "q")⟩

/-- An assistant event at exactly the 24-hour mark. -/
def evC2 : ChatEvent := ⟨"T", some 86400, "assistant", some "a", "R"⟩

/-- One user turn followed by a two-part assistant answer. -/
def exC3 : List ChatEvent :=
  [⟨"T", some 0, "user", some "hi", "R"⟩, ⟨"T", some 5, "assistant", some "p1", "R"⟩,
   ⟨"T", some 9, "assistant", some "p2", "R"⟩]

/-- Two users sharing one timestamp, then an assistant reply: input order
decides which user message the reply pairs with. -/
def exC4a : List ChatEvent :=
  [⟨"T", some 0, "user", some "A", "R"⟩, ⟨"T", some 0, "user", some "B", "R"⟩,
   ⟨"T", some 5, "assistant", some "ok", "R"⟩]

/-- `exC4a` with the two tied user rows swapped. -/
def exC4b : List ChatEvent :=
  [⟨"T", some 0, "user", some "B", "R"⟩, ⟨"T", some 0, "user", some "A", "R"⟩,
   ⟨"T", some 5, "assistant", some "ok", "R"⟩]

/-- The record `exC4a` produces (its reply pairs with message "B"). -/
def recC4 : LatencyRecord := mkRecord "T" "R" 0 5 (some "B") (some "ok")

/-- A permutation-invariance example with all thread timestamps distinct. -/
def exC4w : List ChatEvent :=
  [⟨"T", some 0, "user", some "hi", "R"⟩, ⟨"T", some 5, "assistant", some "yo", "R"⟩,
   ⟨"U", some 2, "user", some "x", "S"⟩]

/-- `exC4w` listed in reverse order. -/
def exC4wr : List ChatEvent :=
  [⟨"U", some 2, "user", some "x", "S"⟩, ⟨"T", some 5, "assistant", some "yo", "R"⟩,
   ⟨"T", some 0, "user", some "hi", "R"⟩]

/-- First event of the C5 thread: a non-user, non-assistant row in region "A"
that sorts first. -/
def evC5a : ChatEvent := ⟨"T", some 0, "x", some "s", "A"⟩

/-- The paired user turn of the C5 thread, in region "B". -/
def evC5b : ChatEvent := ⟨"T", some 10, "user", some "u", "B"⟩

/-- The paired assistant reply of the C5 thread, in region "B". -/
def evC5c : ChatEvent := ⟨"T", some 20, "assistant", some "v", "B"⟩

/-- The C5 thread: both paired events are in region "B" but the thread's first
sorted event is in region "A". -/
def exC5 : List ChatEvent := [evC5a, evC5b, evC5c]

/-- The record `exC5` produces. -/
def recC5 : LatencyRecord := mkRecord "T" "A" 10 20 (some "u") (some "v")

/-- A non-empty table missing both the timestamp and the role columns. -/
def tblC9 : EventTable :=
  ⟨["thread_id", "message", "region"], [⟨"T", some 0, "user", some "m", "R"⟩]⟩

/-- A non-empty table that has a timestamp column but is missing role. -/
def tblC9w : EventTable :=
  ⟨["thread_id", "timestamp", "message", "region"], [⟨"T", some 0, "user", some "m", "R"⟩]⟩

/-- An empty table with no columns at all. -/
def tblC10 : EventTable := ⟨[], []⟩

/-- Five per-thread aggregates with average latencies 1, 1, 1, 1, 100. -/
def aggsC7 : List ThreadAgg :=
  [⟨"A", 2, 1⟩, ⟨"B", 3, 1⟩, ⟨"C", 4, 1⟩, ⟨"D", 5, 1⟩, ⟨"E", 6, 100⟩]

/-- A single per-thread aggregate (one surviving correlation point). -/
def aggC8 : ThreadAgg := ⟨"T1", 5, 3⟩

/-! Order-theoretic facts about the sort key. -/

theorem char_toNat_inj {a b : Char} (h : a.toNat = b.toNat) : a = b := by
  have hv : a.val = b.val := by
    apply UInt32.ext
    have : a.val.toNat = b.val.toNat := h
    omega
  exact Char.eq_of_val_eq hv

theorem charListLt_trichotomy : ∀ as bs : List Char,
    as = bs ∨ charListLt as bs = true ∨ charListLt bs as = true := by
  intro as
  induction as with
  | nil =>
    intro bs
    cases bs with
    | nil => exact Or.inl rfl
    | cons b bs => exact Or.inr (Or.inl rfl)
  | cons a as ih =>
    intro bs
    cases bs with
    | nil => exact Or.inr (Or.inr rfl)
    | cons b bs =>
      by_cases h1 : a.toNat < b.toNat
      · exact Or.inr (Or.inl (by simp [charListLt, h1]))
      · by_cases h2 : b.toNat < a.toNat
        · exact Or.inr (Or.inr (by simp [charListLt, h2]))
        · have hab : a = b := char_toNat_inj (by omega)
          subst hab
          rcases ih bs with h | h | h
          · exact Or.inl (by rw [h])
          · exact Or.inr (Or.inl (by simp [charListLt, h1, h]))
          · exact Or.inr (Or.inr (by simp [charListLt, h1, h]))

theorem charListLt_trans : ∀ as bs cs : List Char,
    charListLt as bs = true → charListLt bs cs = true → charListLt as cs = true := by
  intro as
  induction as with
  | nil =>
    intro bs cs h1 h2
    cases bs with
    | nil => simp [charListLt] at h1
    | cons b bs =>
      cases cs with
      | nil => simp [charListLt] at h2
      | cons c cs => simp [charListLt]
  | cons a as ih =>
    intro bs cs h1 h2
    cases bs with
    | nil => simp [charListLt] at h1
    | cons b bs =>
      cases cs with
      | nil => simp [charListLt] at h2
      | cons c cs =>
        simp only [charListLt] at h1 h2 ⊢
        by_cases hab : a.toNat < b.toNat
        · by_cases hbc : b.toNat < c.toNat
          · simp [show a.toNat < c.toNat by omega]
          · by_cases hcb : c.toNat < b.toNat
            · simp [hbc, hcb] at h2
            · have hbceq : b = c := char_toNat_inj (by omega)
              subst hbceq
              simp [hab]
        · by_cases hba : b.toNat < a.toNat
          · simp [hab, hba] at h1
          · have habeq : a = b := char_toNat_inj (by omega)
            subst habeq
            simp only [hab, if_false, if_neg (by omega : ¬ a.toNat < a.toNat)] at h1
            by_cases hac : a.toNat < c.toNat
            · simp [hac]
            · by_cases hca : c.toNat < a.toNat
              · simp [hac, hca] at h2
              · simp only [hac, if_false, if_neg hca] at h2 ⊢
                exact ih bs cs h1 h2

theorem charListLt_irrefl : ∀ as : List Char, charListLt as as = false := by
  intro as
  induction as with
  | nil => rfl
  | cons a as ih => simp [charListLt, ih]

theorem strLtB_total {a b : String} (h : a ≠ b) : strLtB a b = true ∨ strLtB b a = true := by
  rcases charListLt_trichotomy a.data b.data with he | h1 | h1
  · exact absurd (String.ext he) h
  · exact Or.inl h1
  · exact Or.inr h1

theorem strLtB_trans {a b c : String} (h1 : strLtB a b = true) (h2 : strLtB b c = true) :
    strLtB a c = true :=
  charListLt_trans a.data b.data c.data h1 h2

theorem strLtB_irrefl (a : String) : strLtB a a = false := charListLt_irrefl a.data

theorem tsLtB_trans : ∀ x y z : Option Int,
    tsLtB x y = true → tsLtB y z = true → tsLtB x z = true := by
  intro x y z h1 h2
  cases x with
  | none => simp [tsLtB] at h1
  | some a =>
    cases y with
    | none => simp [tsLtB] at h2
    | some b =>
      cases z with
      | none => simp [tsLtB]
      | some c =>
        simp only [tsLtB, decide_eq_true_eq] at h1 h2 ⊢
        omega

theorem tsLtB_irrefl (x : Option Int) : tsLtB x x = false := by
  cases x with
  | none => rfl
  | some a => simp [tsLtB]

theorem tsLtB_total {x y : Option Int} (h : x ≠ y) :
    tsLtB x y = true ∨ tsLtB y x = true := by
  cases x with
  | none =>
    cases y with
    | none => exact absurd rfl h
    | some b => exact Or.inr rfl
  | some a =>
    cases y with
    | none => exact Or.inl rfl
    | some b =>
      have : a ≠ b := fun hh => h (by rw [hh])
      simp only [tsLtB, decide_eq_true_eq]
      omega

theorem rowLE_total (p q : Nat × ChatEvent) : rowLE p q = true ∨ rowLE q p = true := by
  unfold rowLE
  by_cases h : p.2.thread_id = q.2.thread_id
  · rw [if_pos h, if_pos h.symm]
    by_cases ht : p.2.timestamp = q.2.timestamp
    · rw [if_pos ht, if_pos ht.symm]
      simp only [decide_eq_true_eq]
      omega
    · rw [if_neg ht, if_neg (Ne.symm ht)]
      exact tsLtB_total ht
  · rw [if_neg h, if_neg (Ne.symm h)]
    exact strLtB_total h

theorem rowLE_trans (p q r : Nat × ChatEvent)
    (h1 : rowLE p q = true) (h2 : rowLE q r = true) : rowLE p r = true := by
  unfold rowLE at h1 h2 ⊢
  by_cases hpq : p.2.thread_id = q.2.thread_id
  · by_cases hqr : q.2.thread_id = r.2.thread_id
    · rw [if_pos hpq] at h1
      rw [if_pos hqr] at h2
      rw [if_pos (hpq.trans hqr)]
      by_cases tpq : p.2.timestamp = q.2.timestamp
      · by_cases tqr : q.2.timestamp = r.2.timestamp
        · rw [if_pos tpq] at h1
          rw [if_pos tqr] at h2
          rw [if_pos (tpq.trans tqr)]
          simp only [decide_eq_true_eq] at h1 h2 ⊢
          omega
        · rw [if_neg tqr] at h2
          have tpr : p.2.timestamp ≠ r.2.timestamp := by
            rw [tpq]; exact tqr
          rw [if_neg tpr, tpq]
          exact h2
      · by_cases tqr : q.2.timestamp = r.2.timestamp
        · rw [if_neg tpq] at h1
          have tpr : p.2.timestamp ≠ r.2.timestamp := by
            rw [← tqr]; exact tpq
          rw [if_neg tpr, ← tqr]
          exact h1
        · rw [if_neg tpq] at h1
          rw [if_neg tqr] at h2
          have htr : tsLtB p.2.timestamp r.2.timestamp = true :=
            tsLtB_trans _ _ _ h1 h2
          have tpr : p.2.timestamp ≠ r.2.timestamp := by
            intro he
            rw [he] at h1
            have : tsLtB q.2.timestamp q.2.timestamp = true := tsLtB_trans _ _ _ h2 h1
            rw [tsLtB_irrefl] at this
            exact Bool.false_ne_true this
          rw [if_neg tpr]
          exact htr
    · rw [if_neg hqr] at h2
      have hpr : p.2.thread_id ≠ r.2.thread_id := by
        rw [hpq]; exact hqr
      rw [if_neg hpr, hpq]
      exact h2
  · by_cases hqr : q.2.thread_id = r.2.thread_id
    · rw [if_neg hpq] at h1
      have hpr : p.2.thread_id ≠ r.2.thread_id := by
        rw [← hqr]; exact hpq
      rw [if_neg hpr, ← hqr]
      exact h1
    · rw [if_neg hpq] at h1
      rw [if_neg hqr] at h2
      have hpr : p.2.thread_id ≠ r.2.thread_id := by
        intro he
        rw [he] at h1
        have : strLtB q.2.thread_id q.2.thread_id = true := strLtB_trans h2 h1
        rw [strLtB_irrefl] at this
        exact Bool.false_ne_true this
      rw [if_neg hpr]
      exact strLtB_trans h1 h2

/-! Generic facts about sorted permutations. -/

theorem sorted_perm_eq {α : Type} {R : α → α → Prop} :
    ∀ {l1 l2 : List α}, l1.Perm l2 → l1.Pairwise R → l2.Pairwise R →
      (∀ x ∈ l1, ∀ y ∈ l1, R x y → R y x → x = y) → l1 = l2 := by
  intro l1
  induction l1 with
  | nil =>
    intro l2 hp _ _ _
    exact List.Perm.nil_eq hp
  | cons x t1 ih =>
    intro l2 hp hs1 hs2 hanti
    have hx2 : x ∈ l2 := hp.mem_iff.mp (List.mem_cons_self x t1)
    cases l2 with
    | nil => exact absurd hx2 (List.not_mem_nil x)
    | cons y t2 =>
      by_cases hxy : x = y
      · subst hxy
        have ht : t1.Perm t2 := hp.cons_inv
        have he : t1 = t2 :=
          ih ht (List.Pairwise.of_cons hs1) (List.Pairwise.of_cons hs2)
            (fun a ha b hb hab hba =>
              hanti a (List.mem_cons_of_mem x ha) b (List.mem_cons_of_mem x hb) hab hba)
        rw [he]
      · have hxt2 : x ∈ t2 := by
          rcases List.mem_cons.mp hx2 with h | h
          · exact absurd h hxy
          · exact h
        have hy1 : y ∈ x :: t1 := hp.symm.mem_iff.mp (List.mem_cons_self y t2)
        have hyt1 : y ∈ t1 := by
          rcases List.mem_cons.mp hy1 with h | h
          · exact absurd h.symm hxy
          · exact h
        have hRxy : R x y := (List.pairwise_cons.mp hs1).1 y hyt1
        have hRyx : R y x := (List.pairwise_cons.mp hs2).1 x hxt2
        exact absurd (hanti x (List.mem_cons_self x t1) y (List.mem_cons_of_mem x hyt1) hRxy hRyx) hxy

theorem perm_sorted_head {α : Type} {R : α → α → Prop} {l rest : List α} {x : α}
    (hp : l.Perm (x :: rest)) (hs : l.Pairwise R)
    (hmin : ∀ y ∈ rest, ¬ R y x) :
    ∃ t, l = x :: t ∧ t.Perm rest := by
  cases l with
  | nil =>
    have := hp.length_eq
    simp at this
  | cons h t =>
    by_cases hhx : h = x
    · subst hhx
      exact ⟨t, rfl, hp.cons_inv⟩
    · have hh : h ∈ x :: rest := hp.mem_iff.mp (List.mem_cons_self h t)
      have hhrest : h ∈ rest := by
        rcases List.mem_cons.mp hh with h1 | h1
        · exact absurd h1 hhx
        · exact h1
      have hx1 : x ∈ h :: t := hp.symm.mem_iff.mp (List.mem_cons_self x rest)
      have hxt : x ∈ t := by
        rcases List.mem_cons.mp hx1 with h1 | h1
        · exact absurd h1.symm hhx
        · exact h1
      have : R h x := (List.pairwise_cons.mp hs).1 x hxt
      exact absurd this (hmin h hhrest)

/-! Facts about the sorted frame and its per-thread groups. -/

theorem sortEvents_perm (rows : List ChatEvent) : (sortEvents rows).Perm rows := by
  unfold sortEvents
  have h1 : (@List.insertionSort _ rowRel rowRelDec rows.enum).Perm rows.enum :=
    @List.perm_insertionSort _ rowRel rowRelDec rows.enum
  have h2 := h1.map (fun p : Nat × ChatEvent => p.2)
  have h3 : rows.enum.map (fun p : Nat × ChatEvent => p.2) = rows := List.enum_map_snd rows
  rw [h3] at h2
  exact h2

theorem insertionSort_enum_pairwise (rows : List ChatEvent) :
    (@List.insertionSort _ rowRel rowRelDec rows.enum).Pairwise rowRel :=
  @List.sorted_insertionSort _ rowRel rowRelDec
    ⟨rowLE_total⟩ ⟨fun a b c => rowLE_trans a b c⟩ rows.enum

theorem sortEvents_filter_eq (rows : List ChatEvent) (pb : ChatEvent → Bool) :
    (sortEvents rows).filter pb
      = ((@List.insertionSort _ rowRel rowRelDec rows.enum).filter
          (fun p => pb p.2)).map (fun p => p.2) := by
  unfold sortEvents
  rw [List.filter_map]
  rfl

theorem enum_filter_map_snd (rows : List ChatEvent) (pb : ChatEvent → Bool) :
    (rows.enum.filter (fun p => pb p.2)).map (fun p : Nat × ChatEvent => p.2)
      = rows.filter pb := by
  conv_rhs => rw [← List.enum_map_snd rows]
  rw [List.filter_map]
  rfl

theorem enum_pairwise_fst (rows : List ChatEvent) :
    rows.enum.Pairwise (fun p q : Nat × ChatEvent => p.1 < q.1) := by
  have h1 : (rows.enum.map Prod.fst).Pairwise (fun a b : Nat => a < b) := by
    rw [List.enum_map_fst]
    exact List.pairwise_lt_range rows.length
  exact List.pairwise_map.mp h1

theorem enum_filter_pairwise_fst (rows : List ChatEvent) (pb : ChatEvent → Bool) :
    (rows.enum.filter (fun p => pb p.2)).Pairwise (fun p q : Nat × ChatEvent => p.1 < q.1) :=
  List.Pairwise.sublist (List.filter_sublist _) (enum_pairwise_fst rows)

theorem sortedGroup_pairwise (rows : List ChatEvent) (pb : ChatEvent → Bool) :
    ((@List.insertionSort _ rowRel rowRelDec rows.enum).filter (fun p => pb p.2)).Pairwise rowRel :=
  List.Pairwise.sublist (List.filter_sublist _) (insertionSort_enum_pairwise rows)

theorem sortedGroup_perm (rows : List ChatEvent) (pb : ChatEvent → Bool) :
    ((@List.insertionSort _ rowRel rowRelDec rows.enum).filter (fun p => pb p.2)).Perm
      (rows.enum.filter (fun p => pb p.2)) :=
  (@List.perm_insertionSort _ rowRel rowRelDec rows.enum).filter _

/-! Facts about the pairing loop. -/

theorem pairStep_fields (t reg : String) (st : PairState) (e : ChatEvent) (r : LatencyRecord)
    (h : (pairStep t reg st e).2 = some r) : r.thread_id = t ∧ r.region = reg := by
  by_cases h1 : e.role = "user"
  · simp [pairStep, h1] at h
  · by_cases h2 : e.role = "assistant"
    · rcases hst : st.lastUserTs with _ | tuo
      · simp [pairStep, h1, h2, hst] at h
      · rcases tuo with _ | tu
        · simp [pairStep, h1, h2, hst] at h
        · rcases hts : e.timestamp with _ | ta
          · simp [pairStep, h1, h2, hst, hts] at h
          · have hred : (pairStep t reg st e).2
                = if 0 ≤ ta - tu ∧ ta - tu ≤ 86400
                  then some (mkRecord t reg tu ta st.lastUserMsg.join e.message) else none := by
              simp only [pairStep, if_neg h1, if_pos h2, hst, hts]
              split
              · rfl
              · rfl
            rw [hred] at h
            by_cases h3 : 0 ≤ ta - tu ∧ ta - tu ≤ 86400
            · rw [if_pos h3] at h
              rw [← Option.some_inj.mp h]
              exact ⟨rfl, rfl⟩
            · rw [if_neg h3] at h
              exact absurd h (by simp)
    · simp [pairStep, h1, h2] at h

theorem pairRecords_fields (t reg : String) :
    ∀ (g : List ChatEvent) (st : PairState) (r : LatencyRecord),
      r ∈ pairRecords t reg st g → r.thread_id = t ∧ r.region = reg := by
  intro g
  induction g with
  | nil =>
    intro st r hr
    simp [pairRecords] at hr
  | cons e es ih =>
    intro st r hr
    unfold pairRecords at hr
    rcases hps : pairStep t reg st e with ⟨st2, rec⟩
    rcases rec with _ | r2
    · rw [hps] at hr
      exact ih st2 r hr
    · rw [hps] at hr
      rcases List.mem_cons.mp hr with h | h
      · subst h
        exact pairStep_fields t reg st e r (by rw [hps])
      · exact ih st2 r h

theorem recordsOfGroup_fields (t : String) (g : List ChatEvent) (r : LatencyRecord)
    (hr : r ∈ recordsOfGroup t g) :
    r.thread_id = t ∧ ∃ e es, g = e :: es ∧ r.region = e.region := by
  cases g with
  | nil => simp [recordsOfGroup] at hr
  | cons e es =>
    have h := pairRecords_fields t e.region (e :: es) initState r hr
    exact ⟨h.1, e, es, rfl, h.2⟩

theorem filter_flatMap_thread (T : String) :
    ∀ (tids : List String) (f : String → List LatencyRecord),
      tids.Nodup → (∀ t r, r ∈ f t → r.thread_id = t) →
      (tids.flatMap f).filter (fun r => r.thread_id == T) = if T ∈ tids then f T else [] := by
  intro tids
  induction tids with
  | nil =>
    intro f _ _
    simp
  | cons t ts ih =>
    intro f hnd hf
    have hnd2 : ts.Nodup := (List.nodup_cons.mp hnd).2
    have hnt : t ∉ ts := (List.nodup_cons.mp hnd).1
    rw [List.flatMap_cons, List.filter_append, ih f hnd2 hf]
    by_cases hT : t = T
    · subst hT
      have h1 : (f t).filter (fun r => r.thread_id == t) = f t := by
        apply List.filter_eq_self.mpr
        intro r hr
        simp [hf t r hr]
      rw [h1, if_neg (fun h => hnt h), if_pos (List.mem_cons_self t ts)]
      simp
    · have h1 : (f t).filter (fun r => r.thread_id == T) = [] := by
        apply List.filter_eq_nil_iff.mpr
        intro r hr
        simp [hf t r hr]
        exact hT
      rw [h1]
      by_cases hTts : T ∈ ts
      · rw [if_pos hTts, if_pos (List.mem_cons_of_mem t hTts)]
        simp
      · have hno : T ∉ t :: ts := by
          intro hmem
          rcases List.mem_cons.mp hmem with h | h
          · exact hT h.symm
          · exact hTts h
        rw [if_neg hTts, if_neg hno]
        simp

theorem computeCore_filter (rows : List ChatEvent) (T : String) :
    (computeLatenciesCore rows).filter (fun r => r.thread_id == T)
      = if T ∈ threadIds (sortEvents rows)
        then recordsOfGroup T ((sortEvents rows).filter (fun e => e.thread_id == T))
        else [] := by
  have hnd : (threadIds (sortEvents rows)).Nodup := by
    unfold threadIds
    exact List.nodup_dedup _
  unfold computeLatenciesCore
  exact filter_flatMap_thread T _ _ hnd (fun t r hr => (recordsOfGroup_fields t _ r hr).1)

theorem mem_threadIds (s : List ChatEvent) (T : String) :
    T ∈ threadIds s ↔ ∃ e ∈ s, e.thread_id = T := by
  unfold threadIds
  rw [List.mem_dedup, List.mem_map]

theorem mem_core_iff (rows : List ChatEvent) (r : LatencyRecord) :
    r ∈ computeLatenciesCore rows
      ↔ r ∈ (computeLatenciesCore rows).filter (fun x => x.thread_id == r.thread_id) := by
  simp [List.mem_filter]

theorem pairStep_user (t reg : String) (st : PairState) (e : ChatEvent) (h : e.role = "user") :
    pairStep t reg st e = (⟨some e.timestamp, some e.message⟩, none) := by
  simp [pairStep, h]

theorem pairStep_other (t reg : String) (st : PairState) (e : ChatEvent)
    (h1 : e.role ≠ "user") (h2 : e.role ≠ "assistant") :
    pairStep t reg st e = (st, none) := by
  simp [pairStep, h1, h2]

theorem pairStep_assistant_hit (t reg : String) (st : PairState) (e : ChatEvent)
    (h : e.role = "assistant") (tu ta : Int)
    (hst : st.lastUserTs = some (some tu)) (hts : e.timestamp = some ta)
    (hd : 0 ≤ ta - tu ∧ ta - tu ≤ 86400) :
    pairStep t reg st e = (st, some (mkRecord t reg tu ta st.lastUserMsg.join e.message)) := by
  have h1 : e.role ≠ "user" := by
    rw [h]
    decide
  simp only [pairStep, if_neg h1, if_pos h, hst, hts]
  rw [if_pos hd]

theorem pairStep_assistant_miss (t reg : String) (st : PairState) (e : ChatEvent)
    (h : e.role = "assistant") (tu ta : Int)
    (hst : st.lastUserTs = some (some tu)) (hts : e.timestamp = some ta)
    (hd : ¬ (0 ≤ ta - tu ∧ ta - tu ≤ 86400)) :
    pairStep t reg st e = (st, none) := by
  have h1 : e.role ≠ "user" := by
    rw [h]
    decide
  simp only [pairStep, if_neg h1, if_pos h, hst, hts]
  rw [if_neg hd]

theorem pairStep_assistant_none (t reg : String) (st : PairState) (e : ChatEvent)
    (h : e.role = "assistant") (hst : st.lastUserTs = none) :
    pairStep t reg st e = (st, none) := by
  have h1 : e.role ≠ "user" := by
    rw [h]
    decide
  simp [pairStep, if_neg h1, if_pos h, hst]

theorem pairStep_assistant_nat_state (t reg : String) (st : PairState) (e : ChatEvent)
    (h : e.role = "assistant") (hst : st.lastUserTs = some none) :
    pairStep t reg st e = (st, none) := by
  have h1 : e.role ≠ "user" := by
    rw [h]
    decide
  simp [pairStep, if_neg h1, if_pos h, hst]

theorem pairStep_assistant_nat_ts (t reg : String) (st : PairState) (e : ChatEvent)
    (h : e.role = "assistant") (hts : e.timestamp = none) :
    pairStep t reg st e = (st, none) := by
  have h1 : e.role ≠ "user" := by
    rw [h]
    decide
  simp only [pairStep, if_neg h1, if_pos h, hts]
  rcases st.lastUserTs with _ | tuo
  · rfl
  · rcases tuo with _ | tu
    · rfl
    · rfl

theorem pairRecords_cons_none (t reg : String) (st st2 : PairState) (e : ChatEvent)
    (es : List ChatEvent) (hps : pairStep t reg st e = (st2, none)) :
    pairRecords t reg st (e :: es) = pairRecords t reg st2 es := by
  conv_lhs => rw [pairRecords]
  rw [hps]

theorem pairRecords_cons_some (t reg : String) (st st2 : PairState) (e : ChatEvent)
    (es : List ChatEvent) (r : LatencyRecord) (hps : pairStep t reg st e = (st2, some r)) :
    pairRecords t reg st (e :: es) = r :: pairRecords t reg st2 es := by
  conv_lhs => rw [pairRecords]
  rw [hps]

/-- A consecutive run of assistant events that all fall in the 24-hour window
of the tracked user turn emits one record each, all against that turn. -/
theorem pairRecords_all_assistant (t reg : String) (tu : Int) (m : Option String) :
    ∀ (together : List ChatEvent),
      (∀ e ∈ together, e.role = "assistant"
        ∧ ∃ te, e.timestamp = some te ∧ 0 ≤ te - tu ∧ te - tu ≤ 86400) →
      pairRecords t reg ⟨some (some tu), some m⟩ together
        = together.map (fun e => mkRecord t reg tu (e.timestamp.getD 0) m e.message) := by
  intro together
  induction together with
  | nil =>
    intro _
    rfl
  | cons e es ih =>
    intro hall
    rcases hall e (List.mem_cons_self e es) with ⟨hrole, te, hts, h0, h24⟩
    have hstep := pairStep_assistant_hit t reg ⟨some (some tu), some m⟩ e hrole tu te rfl hts
      ⟨h0, h24⟩
    rw [pairRecords_cons_some t reg _ _ e es _ hstep]
    rw [ih (fun x hx => hall x (List.mem_cons_of_mem e hx))]
    rw [List.map_cons, hts]
    rfl

/-- Events whose timestamps are all NaT emit nothing, from any state. -/
theorem pairRecords_all_nat (t reg : String) :
    ∀ (l : List ChatEvent) (st : PairState),
      (∀ e ∈ l, e.timestamp = none) → pairRecords t reg st l = [] := by
  intro l
  induction l with
  | nil =>
    intro st _
    rfl
  | cons e es ih =>
    intro st hall
    have hts : e.timestamp = none := hall e (List.mem_cons_self e es)
    by_cases h1 : e.role = "user"
    · unfold pairRecords
      rw [pairStep_user t reg st e h1]
      exact ih _ (fun x hx => hall x (List.mem_cons_of_mem e hx))
    · by_cases h2 : e.role = "assistant"
      · unfold pairRecords
        rw [pairStep_assistant_nat_ts t reg st e h2 hts]
        exact ih _ (fun x hx => hall x (List.mem_cons_of_mem e hx))
      · unfold pairRecords
        rw [pairStep_other t reg st e h1 h2]
        exact ih _ (fun x hx => hall x (List.mem_cons_of_mem e hx))

theorem pairRecords_append (t reg : String) :
    ∀ (l1 l2 : List ChatEvent) (st : PairState),
      pairRecords t reg st (l1 ++ l2)
        = pairRecords t reg st l1 ++ pairRecords t reg (stateAfter t reg st l1) l2 := by
  intro l1
  induction l1 with
  | nil =>
    intro l2 st
    rfl
  | cons e es ih =>
    intro l2 st
    rw [List.cons_append]
    rcases hps : pairStep t reg st e with ⟨st2, rec⟩
    have hsa : stateAfter t reg st (e :: es) = stateAfter t reg st2 es := by
      unfold stateAfter
      rw [List.foldl_cons, hps]
    rcases rec with _ | r
    · rw [pairRecords_cons_none t reg st st2 e (es ++ l2) hps,
        pairRecords_cons_none t reg st st2 e es hps, ih l2 st2, hsa]
    · rw [pairRecords_cons_some t reg st st2 e (es ++ l2) r hps,
        pairRecords_cons_some t reg st st2 e es r hps, ih l2 st2, hsa]
      rfl

/-- Before any user turn has been seen, non-user events leave the loop where it
started, and an assistant event in that situation emits nothing: the records of
the whole group are those of the remainder. -/
theorem pairRecords_no_user_prefix (t reg : String) :
    ∀ (g1 : List ChatEvent) (a : ChatEvent) (g2 : List ChatEvent),
      (∀ e ∈ g1, e.role ≠ "user") → a.role = "assistant" →
      pairRecords t reg initState (g1 ++ a :: g2) = pairRecords t reg initState g2 := by
  intro g1
  induction g1 with
  | nil =>
    intro a g2 _ ha
    rw [List.nil_append]
    exact pairRecords_cons_none t reg initState initState a g2
      (pairStep_assistant_none t reg initState a ha rfl)
  | cons e es ih =>
    intro a g2 hne ha
    rw [List.cons_append]
    by_cases h2 : e.role = "assistant"
    · rw [pairRecords_cons_none t reg initState initState e (es ++ a :: g2)
        (pairStep_assistant_none t reg initState e h2 rfl)]
      exact ih a g2 (fun x hx => hne x (List.mem_cons_of_mem e hx)) ha
    · rw [pairRecords_cons_none t reg initState initState e (es ++ a :: g2)
        (pairStep_other t reg initState e (hne e (List.mem_cons_self e es)) h2)]
      exact ih a g2 (fun x hx => hne x (List.mem_cons_of_mem e hx)) ha

theorem mem_threadIds_sortEvents (rows : List ChatEvent) (T : String) (e : ChatEvent)
    (he : e ∈ rows) (hT : e.thread_id = T) : T ∈ threadIds (sortEvents rows) :=
  (mem_threadIds _ T).mpr ⟨e, (sortEvents_perm rows).mem_iff.mpr he, hT⟩

/-- If the input rows of thread `T` are one event `u` followed by events none
of which is timestamp-below `u`, then the sorted group starts with `u` and
continues with some permutation of the rest: `u` carries both the weakly least
timestamp and the least original position, and the sort is stable. -/
theorem sorted_group_user_first (rows : List ChatEvent) (T : String) (u : ChatEvent)
    (rest : List ChatEvent)
    (hfil : rows.filter (fun e => e.thread_id == T) = u :: rest)
    (hts : ∀ a ∈ rest, tsLtB a.timestamp u.timestamp = false) :
    ∃ grest, (sortEvents rows).filter (fun e => e.thread_id == T) = u :: grest
      ∧ grest.Perm rest := by
  have hmsnd : (rows.enum.filter (fun p => p.2.thread_id == T)).map
      (fun p : Nat × ChatEvent => p.2) = u :: rest := by
    rw [enum_filter_map_snd rows (fun e => e.thread_id == T)]
    exact hfil
  rcases hef : rows.enum.filter (fun p => p.2.thread_id == T) with _ | ⟨x, efrest⟩
  · rw [hef] at hmsnd
    simp at hmsnd
  · rw [hef] at hmsnd
    rw [List.map_cons] at hmsnd
    have hx2 : x.2 = u := (List.cons.injEq _ _ _ _ ▸ hmsnd).1
    have hefrest : efrest.map (fun p : Nat × ChatEvent => p.2) = rest :=
      (List.cons.injEq _ _ _ _ ▸ hmsnd).2
    have hpfst : ∀ y ∈ efrest, x.1 < y.1 := by
      have hpw := enum_filter_pairwise_fst rows (fun e => e.thread_id == T)
      rw [hef] at hpw
      exact (List.pairwise_cons.mp hpw).1
    have hthreads : ∀ p ∈ rows.enum.filter (fun p : Nat × ChatEvent => p.2.thread_id == T),
        p.2.thread_id = T := by
      intro p hp
      have := (List.mem_filter.mp hp).2
      exact beq_iff_eq.mp this
    have hxT : x.2.thread_id = T := hthreads x (by rw [hef]; exact List.mem_cons_self x efrest)
    have hyT : ∀ y ∈ efrest, y.2.thread_id = T := by
      intro y hy
      exact hthreads y (by rw [hef]; exact List.mem_cons_of_mem x hy)
    have hperm : ((@List.insertionSort _ rowRel rowRelDec rows.enum).filter
        (fun p => p.2.thread_id == T)).Perm (x :: efrest) := by
      rw [← hef]
      exact sortedGroup_perm rows (fun e => e.thread_id == T)
    have hmin : ∀ y ∈ efrest, ¬ rowRel y x := by
      intro y hy hR
      unfold rowRel rowLE at hR
      rw [if_pos ((hyT y hy).trans hxT.symm)] at hR
      by_cases hts2 : y.2.timestamp = x.2.timestamp
      · rw [if_pos hts2] at hR
        have := hpfst y hy
        simp only [decide_eq_true_eq] at hR
        omega
      · rw [if_neg hts2] at hR
        have hy2rest : y.2 ∈ rest := by
          rw [← hefrest]
          exact List.mem_map_of_mem _ hy
        rw [hx2] at hR
        rw [hts y.2 hy2rest] at hR
        exact Bool.false_ne_true hR
    rcases perm_sorted_head hperm
      (sortedGroup_pairwise rows (fun e => e.thread_id == T)) hmin with ⟨lrest, hl, hlp⟩
    refine ⟨lrest.map (fun p : Nat × ChatEvent => p.2), ?_, ?_⟩
    · rw [sortEvents_filter_eq rows (fun e => e.thread_id == T), hl, List.map_cons, hx2]
    · rw [← hefrest]
      exact hlp.map _

/-- C1: for every input containing a thread consisting of exactly one user
event followed by one assistant event, with valid timestamps and a delta in
[0, 24h], compute_latencies emits exactly one LatencyRecord for that thread,
whose latency_seconds is the delta (the single record is spelled out in
full); and an assistant event with no preceding user event in its thread
contributes nothing: the loop output of a group whose prefix before that
assistant event holds no user event equals the output of the remainder. -/
theorem claim_C1_single_pair :
    (∀ (rows : List ChatEvent) (T : String) (u a : ChatEvent) (tu ta : Int),
      rows.filter (fun e => e.thread_id == T) = [u, a] →
      u.role = "user" → a.role = "assistant" →
      u.timestamp = some tu → a.timestamp = some ta →
      0 ≤ ta - tu → ta - tu ≤ 86400 →
      (computeLatenciesCore rows).filter (fun r => r.thread_id == T)
        = [mkRecord T u.region tu ta u.message a.message])
    ∧ (∀ (t reg : String) (g1 : List ChatEvent) (a : ChatEvent) (g2 : List ChatEvent),
      (∀ e ∈ g1, e.role ≠ "user") → a.role = "assistant" →
      pairRecords t reg initState (g1 ++ a :: g2) = pairRecords t reg initState g2) := by
  constructor
  · intro rows T u a tu ta hfil hur har htu hta h0 h24
    have hts : ∀ x ∈ [a], tsLtB x.timestamp u.timestamp = false := by
      intro x hx
      rcases List.mem_singleton.mp hx with rfl
      rw [hta, htu]
      unfold tsLtB
      simp only [decide_eq_false_iff_not]
      omega
    rcases sorted_group_user_first rows T u [a] hfil hts with ⟨grest, hg, hgp⟩
    have hgrest : grest = [a] := List.perm_singleton.mp hgp
    subst hgrest
    have huRows : u ∈ rows ∧ u.thread_id = T := by
      have : u ∈ rows.filter (fun e => e.thread_id == T) := by
        rw [hfil]
        exact List.mem_cons_self u [a]
      rcases List.mem_filter.mp this with ⟨h1, h2⟩
      exact ⟨h1, beq_iff_eq.mp h2⟩
    rw [computeCore_filter rows T,
      if_pos (mem_threadIds_sortEvents rows T u huRows.1 huRows.2), hg]
    have hstep1 : pairStep T u.region initState u
        = (⟨some u.timestamp, some u.message⟩, none) :=
      pairStep_user T u.region initState u hur
    have hrog : recordsOfGroup T (u :: [a])
        = pairRecords T u.region initState (u :: [a]) := rfl
    rw [hrog, pairRecords_cons_none T u.region initState ⟨some u.timestamp, some u.message⟩
      u [a] hstep1]
    have hstep2 : pairStep T u.region (⟨some u.timestamp, some u.message⟩ : PairState) a
        = (⟨some u.timestamp, some u.message⟩,
            some (mkRecord T u.region tu ta
              ((⟨some u.timestamp, some u.message⟩ : PairState)).lastUserMsg.join a.message)) :=
      pairStep_assistant_hit T u.region _ a har tu ta (by rw [show
        ((⟨some u.timestamp, some u.message⟩ : PairState)).lastUserTs = some u.timestamp
        from rfl, htu]) hta ⟨h0, h24⟩
    rw [pairRecords_cons_some T u.region _ _ a [] _ hstep2]
    rfl
  · exact fun t reg g1 a g2 => pairRecords_no_user_prefix t reg g1 a g2

/-- Witness for C1 at a concrete two-event thread (user at 0, assistant at 5). -/
theorem claim_C1_single_pair_witness :
    (computeLatenciesCore exC1).filter (fun r => r.thread_id == "T")
      = [mkRecord "T" "R" 0 5 (some "hi") (some "yo")] :=
  claim_C1_single_pair.1 exC1 "T" ⟨"T", some 0, "user", some "hi", "R"⟩
    ⟨"T", some 5, "assistant", some "yo", "R"⟩ 0 5 (by decide) rfl rfl rfl rfl
    (by decide) (by decide)

/-- C3: the tracked user turn is not cleared after a record is emitted: a
thread holding one user event and then two assistant events, each within the
24-hour window of that user turn, yields exactly two records (one per
assistant event, spelled out up to output order) and both carry the same
user_timestamp. -/
theorem claim_C3_no_reset :
    ∀ (rows : List ChatEvent) (T : String) (u a1 a2 : ChatEvent) (tu t1 t2 : Int),
      rows.filter (fun e => e.thread_id == T) = [u, a1, a2] →
      u.role = "user" → a1.role = "assistant" → a2.role = "assistant" →
      u.timestamp = some tu → a1.timestamp = some t1 → a2.timestamp = some t2 →
      0 ≤ t1 - tu → t1 - tu ≤ 86400 → 0 ≤ t2 - tu → t2 - tu ≤ 86400 →
      ((computeLatenciesCore rows).filter (fun r => r.thread_id == T)).Perm
          [mkRecord T u.region tu t1 u.message a1.message,
           mkRecord T u.region tu t2 u.message a2.message]
        ∧ ∀ r ∈ (computeLatenciesCore rows).filter (fun r => r.thread_id == T),
            r.user_timestamp = tu := by
  intro rows T u a1 a2 tu t1 t2 hfil hur h1r h2r htu ht1 ht2 h10 h124 h20 h224
  have hts : ∀ x ∈ [a1, a2], tsLtB x.timestamp u.timestamp = false := by
    intro x hx
    rcases List.mem_cons.mp hx with rfl | hx2
    · rw [ht1, htu]
      unfold tsLtB
      simp only [decide_eq_false_iff_not]
      omega
    · rcases List.mem_singleton.mp hx2 with rfl
      rw [ht2, htu]
      unfold tsLtB
      simp only [decide_eq_false_iff_not]
      omega
  rcases sorted_group_user_first rows T u [a1, a2] hfil hts with ⟨grest, hg, hgp⟩
  have huRows : u ∈ rows ∧ u.thread_id = T := by
    have : u ∈ rows.filter (fun e => e.thread_id == T) := by
      rw [hfil]
      exact List.mem_cons_self u [a1, a2]
    rcases List.mem_filter.mp this with ⟨hm1, hm2⟩
    exact ⟨hm1, beq_iff_eq.mp hm2⟩
  have hout : (computeLatenciesCore rows).filter (fun r => r.thread_id == T)
      = grest.map (fun e => mkRecord T u.region tu (e.timestamp.getD 0) u.message e.message) := by
    rw [computeCore_filter rows T,
      if_pos (mem_threadIds_sortEvents rows T u huRows.1 huRows.2), hg]
    have hstep1 : pairStep T u.region initState u
        = (⟨some u.timestamp, some u.message⟩, none) :=
      pairStep_user T u.region initState u hur
    have hrog : recordsOfGroup T (u :: grest)
        = pairRecords T u.region initState (u :: grest) := rfl
    rw [hrog, pairRecords_cons_none T u.region initState ⟨some u.timestamp, some u.message⟩
      u grest hstep1, htu]
    apply pairRecords_all_assistant
    intro e he
    rcases List.mem_cons.mp (hgp.mem_iff.mp he) with rfl | he2
    · exact ⟨h1r, t1, ht1, h10, h124⟩
    · rcases List.mem_singleton.mp he2 with rfl
      exact ⟨h2r, t2, ht2, h20, h224⟩
  have hperm2 : (grest.map
        (fun e => mkRecord T u.region tu (e.timestamp.getD 0) u.message e.message)).Perm
      [mkRecord T u.region tu t1 u.message a1.message,
       mkRecord T u.region tu t2 u.message a2.message] := by
    have := hgp.map (fun e => mkRecord T u.region tu (e.timestamp.getD 0) u.message e.message)
    rw [List.map_cons, List.map_cons, List.map_nil, ht1, ht2] at this
    exact this
  constructor
  · rw [hout]
    exact hperm2
  · intro r hr
    rw [hout] at hr
    rcases List.mem_map.mp hr with ⟨e, _, he⟩
    rw [← he]
    rfl

/-- Witness for C3 at a thread with one user turn and a two-part answer. -/
theorem claim_C3_no_reset_witness :
    ((computeLatenciesCore exC3).filter (fun r => r.thread_id == "T")).Perm
      [mkRecord "T" "R" 0 5 (some "hi") (some "p1"),
       mkRecord "T" "R" 0 9 (some "hi") (some "p2")] :=
  (claim_C3_no_reset exC3 "T" ⟨"T", some 0, "user", some "hi", "R"⟩
    ⟨"T", some 5, "assistant", some "p1", "R"⟩ ⟨"T", some 9, "assistant", some "p2", "R"⟩
    0 5 9 (by decide) rfl rfl rfl rfl rfl rfl (by decide) (by decide) (by decide)
    (by decide)).1

/-- C2: when an assistant event with a valid timestamp meets a tracked user
turn with a valid timestamp, a record is emitted iff the delta lies in
[0, 24h] — spelled as the exact value of the loop step — and at the
boundaries the full function emits at exactly 24h, drops at 24h + 1s and
drops a negative delta, returning normally (no error) in each case. -/
theorem claim_C2_window :
    (∀ (t reg : String) (st : PairState) (e : ChatEvent) (tu ta : Int),
      st.lastUserTs = some (some tu) → e.role = "assistant" → e.timestamp = some ta →
      (pairStep t reg st e).2
        = if 0 ≤ ta - tu ∧ ta - tu ≤ 86400
          then some (mkRecord t reg tu ta st.lastUserMsg.join e.message) else none)
    ∧ _compute_assistant_latencies exC2a = .ok [mkRecord "T" "R" 0 86400 (some "q") (some "a")]
    ∧ _compute_assistant_latencies exC2b = .ok []
    ∧ _compute_assistant_latencies exC2c = .ok [] := by
  refine ⟨?_, by rfl, by rfl, by rfl⟩
  intro t reg st e tu ta hst hrole hts
  by_cases hd : 0 ≤ ta - tu ∧ ta - tu ≤ 86400
  · rw [pairStep_assistant_hit t reg st e hrole tu ta hst hts hd, if_pos hd]
  · rw [pairStep_assistant_miss t reg st e hrole tu ta hst hts hd, if_neg hd]

/-- Witness for C2 at the exact 24-hour boundary. -/
theorem claim_C2_window_witness :
    (pairStep "T" "R" stC2 evC2).2
      = if 0 ≤ (86400 : Int) - 0 ∧ (86400 : Int) - 0 ≤ 86400
        then some (mkRecord "T" "R" 0 86400 stC2.lastUserMsg.join evC2.message) else none :=
  claim_C2_window.1 "T" "R" stC2 evC2 0 86400 rfl rfl rfl

/-- C5 counterexample: in `exC5` the paired user event (timestamp 10) and the
paired assistant event (timestamp 20) are both in region "B", yet the emitted
record carries region "A" — the region of the thread's first sorted event —
so the record's region is not the region of its pairing. -/
theorem claim_C5_region_counterexample :
    computeLatenciesCore exC5 = [recC5]
      ∧ recC5.user_timestamp = 10 ∧ recC5.assistant_timestamp = 20
      ∧ evC5b.timestamp = some 10 ∧ evC5c.timestamp = some 20
      ∧ evC5b.region = "B" ∧ evC5c.region = "B" ∧ recC5.region = "A"
      ∧ recC5.region ≠ evC5b.region :=
  ⟨by decide, rfl, rfl, rfl, rfl, rfl, rfl, rfl, by decide⟩

/-- C5 (amended): every emitted record carries the region of the first event
of its thread in sorted order (`g["region"].iloc[0]`), not the region of the
paired events. -/
theorem claim_C5_region_amended :
    ∀ (rows : List ChatEvent) (r : LatencyRecord),
      r ∈ computeLatenciesCore rows →
      (((sortEvents rows).filter (fun e => e.thread_id == r.thread_id)).head?).map
          (fun e => e.region) = some r.region := by
  intro rows r hr
  unfold computeLatenciesCore at hr
  rcases List.mem_flatMap.mp hr with ⟨t, _, hrt⟩
  rcases recordsOfGroup_fields t _ r hrt with ⟨hT, e, es, hge, hreg⟩
  rw [hT, hge]
  simp [hreg]

/-- Witness for the amended C5 at the concrete mixed-region thread. -/
theorem claim_C5_region_amended_witness :
    (((sortEvents exC5).filter (fun e => e.thread_id == recC5.thread_id)).head?).map
        (fun e => e.region) = some recC5.region :=
  claim_C5_region_amended exC5 recC5 (by decide)

/-- C9 (amended): on a non-empty table that has a timestamp column but is
missing other required columns, the function raises the descriptive
ValueError listing exactly the missing columns; when the timestamp column
itself is missing, the dtype-coercion access raises a bare KeyError on
"timestamp" first. -/
theorem claim_C9_missing_columns_amended :
    (∀ tbl : EventTable, tbl.rows ≠ [] → "timestamp" ∈ tbl.cols →
      requiredCols.filter (fun c => !(tbl.cols.contains c)) ≠ [] →
      _compute_assistant_latencies tbl
        = .error (.valueError (requiredCols.filter (fun c => !(tbl.cols.contains c)))))
    ∧ (∀ tbl : EventTable, tbl.rows ≠ [] → "timestamp" ∉ tbl.cols →
      _compute_assistant_latencies tbl = .error (.keyError "timestamp")) := by
  constructor
  · intro tbl hr htsc hmiss
    unfold _compute_assistant_latencies
    rw [if_neg (by simp [List.isEmpty_iff, hr]), if_neg (by simp [htsc])]
    rw [if_neg (by simp only [List.isEmpty_iff]; exact hmiss)]
  · intro tbl hr htsc
    unfold _compute_assistant_latencies
    rw [if_neg (by simp [List.isEmpty_iff, hr]), if_pos (by simp [htsc])]

/-- C9 counterexample: `tblC9` is non-empty and missing both the timestamp and
the role columns, yet the function raises the KeyError on "timestamp" — not
the descriptive ValueError identifying the missing columns (role goes
unmentioned). -/
theorem claim_C9_missing_columns_counterexample :
    _compute_assistant_latencies tblC9 = .error (.keyError "timestamp")
      ∧ tblC9.rows ≠ []
      ∧ "role" ∈ requiredCols ∧ "role" ∉ tblC9.cols
      ∧ LatencyError.keyError "timestamp" ≠ .valueError ["timestamp", "role"] :=
  ⟨by rfl, by decide, by decide, by decide, by decide⟩

/-- Witness for the amended C9: a table with timestamps but no role column
raises the ValueError naming exactly the role column. -/
theorem claim_C9_missing_columns_amended_witness :
    _compute_assistant_latencies tblC9w = .error (.valueError ["role"]) := by
  have h := claim_C9_missing_columns_amended.1 tblC9w (by decide) (by decide) (by decide)
  exact h.trans (by rfl)

/-- C10: an empty input table returns an empty record table without raising,
whatever its columns are — the empty-input early return runs before both the
timestamp coercion and the missing-column validation, so the missing-column
error is never raised on empty input. -/
theorem claim_C10_empty_input :
    ∀ tbl : EventTable, tbl.rows = [] → _compute_assistant_latencies tbl = .ok [] := by
  intro tbl h
  unfold _compute_assistant_latencies
  rw [if_pos (by simp [h])]

/-- Witness for C10: the empty table with no columns at all (every required
column missing, timestamp included) still returns an empty result. -/
theorem claim_C10_empty_input_witness :
    _compute_assistant_latencies tblC10 = .ok [] :=
  claim_C10_empty_input tblC10 rfl

theorem group_pairwise_tsLe (rows : List ChatEvent) (T : String) :
    ((sortEvents rows).filter (fun e => e.thread_id == T)).Pairwise tsLe := by
  rw [sortEvents_filter_eq rows (fun e => e.thread_id == T)]
  apply List.pairwise_map.mpr
  have hpw := sortedGroup_pairwise rows (fun e => e.thread_id == T)
  apply List.Pairwise.imp_of_mem ?_ hpw
  intro p q hp hq hR
  have hpT : p.2.thread_id = T := beq_iff_eq.mp (List.mem_filter.mp hp).2
  have hqT : q.2.thread_id = T := beq_iff_eq.mp (List.mem_filter.mp hq).2
  unfold rowRel rowLE at hR
  rw [if_pos (hpT.trans hqT.symm)] at hR
  by_cases hts : p.2.timestamp = q.2.timestamp
  · exact Or.inl hts
  · rw [if_neg hts] at hR
    exact Or.inr hR

theorem dropWhile_hasTs_nat :
    ∀ (g : List ChatEvent), g.Pairwise tsLe →
      ∀ e ∈ g.dropWhile hasTs, e.timestamp = none := by
  intro g
  induction g with
  | nil =>
    intro _ e he
    simp at he
  | cons x xs ih =>
    intro hs e he
    rw [List.dropWhile_cons] at he
    by_cases hx : hasTs x = true
    · rw [if_pos hx] at he
      exact ih (List.Pairwise.of_cons hs) e he
    · rw [if_neg hx] at he
      have hxnat : x.timestamp = none := by
        unfold hasTs at hx
        exact Option.not_isSome_iff_eq_none.mp (by simpa using hx)
      rcases List.mem_cons.mp he with rfl | he2
      · exact hxnat
      · have hle : tsLe x e := (List.pairwise_cons.mp hs).1 e he2
        rcases hle with heq | hlt
        · rw [← heq]
          exact hxnat
        · rw [hxnat] at hlt
          exact absurd hlt (by simp [tsLtB])

theorem filter_hasTs_eq_takeWhile (g : List ChatEvent) (hs : g.Pairwise tsLe) :
    g.filter hasTs = g.takeWhile hasTs := by
  conv_lhs => rw [← List.takeWhile_append_dropWhile (p := hasTs) (l := g)]
  rw [List.filter_append]
  have h1 : (g.takeWhile hasTs).filter hasTs = g.takeWhile hasTs :=
    List.filter_eq_self.mpr (fun a ha => List.mem_takeWhile_imp ha)
  have h2 : (g.dropWhile hasTs).filter hasTs = [] := by
    apply List.filter_eq_nil_iff.mpr
    intro a ha
    have := dropWhile_hasTs_nat g hs a ha
    unfold hasTs
    rw [this]
    simp
  rw [h1, h2, List.append_nil]

theorem recordsOfGroup_congr (t : String) (g g2 : List ChatEvent)
    (hp : g.Perm g2) (hs : g.Pairwise tsLe) (hs2 : g2.Pairwise tsLe)
    (hanti : ∀ x ∈ g, ∀ y ∈ g, x.timestamp = y.timestamp → x.timestamp ≠ none → x = y) :
    recordsOfGroup t g = recordsOfGroup t g2 := by
  have htw : g.takeWhile hasTs = g2.takeWhile hasTs := by
    rw [← filter_hasTs_eq_takeWhile g hs, ← filter_hasTs_eq_takeWhile g2 hs2]
    apply sorted_perm_eq (hp.filter hasTs)
      (List.Pairwise.sublist (List.filter_sublist g) hs)
      (List.Pairwise.sublist (List.filter_sublist g2) hs2)
    intro x hx y hy hxy hyx
    have hxg : x ∈ g := (List.mem_filter.mp hx).1
    have hyg : y ∈ g := (List.mem_filter.mp hy).1
    have hxts : x.timestamp ≠ none := by
      have := (List.mem_filter.mp hx).2
      unfold hasTs at this
      exact Option.isSome_iff_ne_none.mp this
    rcases hxy with heq | hlt
    · exact hanti x hxg y hyg heq hxts
    · rcases hyx with heq2 | hlt2
      · exact hanti x hxg y hyg heq2.symm hxts
      · have : tsLtB x.timestamp x.timestamp = true := tsLtB_trans _ _ _ hlt hlt2
        rw [tsLtB_irrefl] at this
        exact absurd this Bool.false_ne_true
  rcases htww : g.takeWhile hasTs with _ | ⟨e, tws⟩
  · have hgnat : ∀ x ∈ g, x.timestamp = none := by
      intro x hx
      have hdw : g.dropWhile hasTs = g := by
        conv_rhs => rw [← List.takeWhile_append_dropWhile (p := hasTs) (l := g)]
        rw [htww, List.nil_append]
      apply dropWhile_hasTs_nat g hs
      rw [hdw]
      exact hx
    have hg2nat : ∀ x ∈ g2, x.timestamp = none := fun x hx => hgnat x (hp.mem_iff.mpr hx)
    have hr1 : recordsOfGroup t g = [] := by
      cases g with
      | nil => rfl
      | cons a l =>
        exact pairRecords_all_nat t a.region (a :: l) initState hgnat
    have hr2 : recordsOfGroup t g2 = [] := by
      cases g2 with
      | nil => rfl
      | cons a l =>
        exact pairRecords_all_nat t a.region (a :: l) initState hg2nat
    rw [hr1, hr2]
  · have hg : g = (e :: tws) ++ g.dropWhile hasTs := by
      conv_lhs => rw [← List.takeWhile_append_dropWhile (p := hasTs) (l := g)]
      rw [htww]
    have hg2 : g2 = (e :: tws) ++ g2.dropWhile hasTs := by
      conv_lhs => rw [← List.takeWhile_append_dropWhile (p := hasTs) (l := g2)]
      rw [← htw, htww]
    have hnat1 : ∀ x ∈ g.dropWhile hasTs, x.timestamp = none := dropWhile_hasTs_nat g hs
    have hnat2 : ∀ x ∈ g2.dropWhile hasTs, x.timestamp = none := dropWhile_hasTs_nat g2 hs2
    have hrec1 : recordsOfGroup t g
        = pairRecords t e.region initState ((e :: tws) ++ g.dropWhile hasTs) := by
      conv_lhs => rw [hg]
      rfl
    have hrec2 : recordsOfGroup t g2
        = pairRecords t e.region initState ((e :: tws) ++ g2.dropWhile hasTs) := by
      conv_lhs => rw [hg2]
      rfl
    rw [hrec1, hrec2, pairRecords_append, pairRecords_append,
      pairRecords_all_nat t e.region _ _ hnat1, pairRecords_all_nat t e.region _ _ hnat2,
      List.append_nil]

/-- C4 (amended): compute_latencies is order-independent on inputs in which no
two distinct events of one thread share the same valid timestamp — every
permutation of the rows produces the same set of LatencyRecords.  At identical
timestamps the sort is stable (ties broken by original row order), witnessed by
the tied input exC4a pairing the assistant reply with the second-listed user
message "B". -/
theorem claim_C4_order_amended :
    (∀ rows rows2 : List ChatEvent, rows.Perm rows2 → DistinctTS rows →
      ∀ r : LatencyRecord, r ∈ computeLatenciesCore rows ↔ r ∈ computeLatenciesCore rows2)
    ∧ computeLatenciesCore exC4a = [recC4] := by
  constructor
  · intro rows rows2 hperm hdist r
    have hgperm : ∀ T : String,
        ((sortEvents rows).filter (fun e => e.thread_id == T)).Perm
          ((sortEvents rows2).filter (fun e => e.thread_id == T)) := by
      intro T
      exact ((sortEvents_perm rows).trans (hperm.trans (sortEvents_perm rows2).symm)).filter _
    have hmemiff : ∀ T : String,
        T ∈ threadIds (sortEvents rows) ↔ T ∈ threadIds (sortEvents rows2) := by
      intro T
      rw [mem_threadIds, mem_threadIds]
      constructor
      · rintro ⟨e, he, hT⟩
        exact ⟨e, (sortEvents_perm rows2).mem_iff.mpr
          (hperm.mem_iff.mp ((sortEvents_perm rows).mem_iff.mp he)), hT⟩
      · rintro ⟨e, he, hT⟩
        exact ⟨e, (sortEvents_perm rows).mem_iff.mpr
          (hperm.mem_iff.mpr ((sortEvents_perm rows2).mem_iff.mp he)), hT⟩
    have hfeq : ∀ T : String,
        (computeLatenciesCore rows).filter (fun x => x.thread_id == T)
          = (computeLatenciesCore rows2).filter (fun x => x.thread_id == T) := by
      intro T
      rw [computeCore_filter, computeCore_filter]
      by_cases hT : T ∈ threadIds (sortEvents rows)
      · rw [if_pos hT, if_pos ((hmemiff T).mp hT)]
        apply recordsOfGroup_congr T _ _ (hgperm T) (group_pairwise_tsLe rows T)
          (group_pairwise_tsLe rows2 T)
        intro x hx y hy hts hne
        have hxg : x ∈ rows :=
          (sortEvents_perm rows).mem_iff.mp (List.mem_filter.mp hx).1
        have hyg : y ∈ rows :=
          (sortEvents_perm rows).mem_iff.mp (List.mem_filter.mp hy).1
        have hxT : x.thread_id = T := beq_iff_eq.mp (List.mem_filter.mp hx).2
        have hyT : y.thread_id = T := beq_iff_eq.mp (List.mem_filter.mp hy).2
        exact hdist x hxg y hyg (hxT.trans hyT.symm) hts hne
      · rw [if_neg hT, if_neg (fun h => hT ((hmemiff T).mpr h))]
    rw [mem_core_iff rows r, mem_core_iff rows2 r, hfeq r.thread_id]
  · decide

/-- C4 counterexample: `exC4b` is a permutation of `exC4a` (the two users
tied at timestamp 0 swapped), yet the record pairing the reply with user
message "B" is produced by exC4a and not by exC4b — shuffling tied rows
changes the output set. -/
theorem claim_C4_order_counterexample :
    exC4a.Perm exC4b ∧ recC4 ∈ computeLatenciesCore exC4a
      ∧ recC4 ∉ computeLatenciesCore exC4b := by
  refine ⟨?_, by decide, by decide⟩
  exact List.Perm.swap _ _ _

/-- Witness for the amended C4: a distinct-timestamp input and its reversal
yield the same membership for the concrete record of thread "T". -/
theorem claim_C4_order_amended_witness :
    (mkRecord "T" "R" 0 5 (some "hi") (some "yo") ∈ computeLatenciesCore exC4w)
      ↔ (mkRecord "T" "R" 0 5 (some "hi") (some "yo") ∈ computeLatenciesCore exC4wr) :=
  claim_C4_order_amended.1 exC4w exC4wr (by decide)
    (by unfold DistinctTS; decide) (mkRecord "T" "R" 0 5 (some "hi") (some "yo"))

/-! Rounding facts for the duration formatter. -/

theorem roundHalfEven_intCast (n : Int) : roundHalfEven ((n : ℚ)) = n := by
  unfold roundHalfEven
  rw [Int.floor_intCast]
  rw [if_pos (by norm_num)]

theorem roundHalfEven_of_floor (q : ℚ) (n : Int) (h1 : (n : ℚ) ≤ q) (h2 : q - n < 1 / 2) :
    roundHalfEven q = n := by
  have hf : ⌊q⌋ = n := by
    rw [Int.floor_eq_iff]
    exact ⟨h1, by linarith⟩
  unfold roundHalfEven
  rw [hf, if_pos h2]

theorem roundHalfEven_of_floor_up (q : ℚ) (n : Int) (h1 : (n : ℚ) ≤ q) (h1b : q < n + 1)
    (h2 : 1 / 2 < q - n) : roundHalfEven q = n + 1 := by
  have hf : ⌊q⌋ = n := by
    rw [Int.floor_eq_iff]
    exact ⟨h1, h1b⟩
  unfold roundHalfEven
  rw [hf, if_neg (by linarith), if_pos h2]

/-- C6 (amended): _format_seconds agrees with the spec's piecewise reference
definition amended in the two places the code forces — negative inputs fall
into the millisecond branch (the placeholder is returned only for non-numeric
input), and the minutes/hours split happens on the rounded total (a value just
under 3600 s that rounds up is rendered in hour form) — and it reproduces the
spec's worked examples 0.34 s, 3.14159 s, 125 s and 3789 s. -/
theorem claim_C6_format_duration_amended :
    (∀ x : Option ℚ, _format_seconds x = format_duration_spec x)
    ∧ _format_seconds (some (17 / 50)) = "340 ms"
    ∧ _format_seconds (some (314159 / 100000)) = "3.14 s"
    ∧ _format_seconds (some 125) = "2m 5s"
    ∧ _format_seconds (some 3789) = "1h 3m 9s"
    ∧ _format_seconds none = "-" := by
  refine ⟨?_, ?_, ?_, ?_, ?_, rfl⟩
  · intro x
    rcases x with _ | s
    · rfl
    · simp only [_format_seconds, format_duration_spec]
      by_cases h1 : s < 1
      · rw [if_pos h1, if_pos h1]
      · rw [if_neg h1, if_neg h1]
        by_cases h2 : s < 60
        · rw [if_pos h2, if_pos h2]
        · rw [if_neg h2, if_neg h2]
          have hiff : roundHalfEven s / 60 < 60 ↔ roundHalfEven s < 3600 := by omega
          by_cases h3 : roundHalfEven s < 3600
          · rw [if_pos (hiff.mpr h3), if_pos h3]
          · rw [if_neg (fun hh => h3 (hiff.mp hh)), if_neg h3]
  · have h340 : (17 : ℚ) / 50 * 1000 = ((340 : Int) : ℚ) := by norm_num
    simp only [_format_seconds]
    rw [if_pos (by norm_num : (17 : ℚ) / 50 < 1), h340, roundHalfEven_intCast]
    rfl
  · have hr : roundHalfEven ((314159 : ℚ) / 100000 * 100) = 314 := by
      have h : (314159 : ℚ) / 100000 * 100 = 314159 / 1000 := by norm_num
      rw [h]
      apply roundHalfEven_of_floor _ 314
      · norm_num
      · norm_num
    simp only [_format_seconds]
    rw [if_neg (by norm_num : ¬ ((314159 : ℚ) / 100000 < 1)),
      if_pos (by norm_num : (314159 : ℚ) / 100000 < 60), hr]
    rfl
  · have hc : (125 : ℚ) = ((125 : Int) : ℚ) := by norm_num
    simp only [_format_seconds]
    rw [if_neg (by norm_num : ¬ ((125 : ℚ) < 1)), if_neg (by norm_num : ¬ ((125 : ℚ) < 60)),
      hc, roundHalfEven_intCast]
    rfl
  · have hc : (3789 : ℚ) = ((3789 : Int) : ℚ) := by norm_num
    simp only [_format_seconds]
    rw [if_neg (by norm_num : ¬ ((3789 : ℚ) < 1)), if_neg (by norm_num : ¬ ((3789 : ℚ) < 60)),
      hc, roundHalfEven_intCast]
    rfl

/-- C6 counterexample: the claim's negative case fails on the code — an input
of -1 second is rendered as "-1000 ms" by the millisecond branch, not as the
placeholder; and 3599.6 s (inside the claim's minutes range 60 ≤ s < 3600)
rounds up to a whole hour and is rendered in hour form, not as minutes and
seconds. -/
theorem claim_C6_format_duration_counterexample :
    _format_seconds (some (-1)) = "-1000 ms"
      ∧ "-1000 ms" ≠ "-"
      ∧ (60 : ℚ) ≤ 17998 / 5 ∧ (17998 : ℚ) / 5 < 3600
      ∧ _format_seconds (some (17998 / 5)) = "1h 0m 0s" := by
  refine ⟨?_, by decide, by norm_num, by norm_num, ?_⟩
  · have hc : (-1 : ℚ) * 1000 = ((-1000 : Int) : ℚ) := by norm_num
    simp only [_format_seconds]
    rw [if_pos (by norm_num : (-1 : ℚ) < 1), hc, roundHalfEven_intCast]
    rfl
  · have hr : roundHalfEven ((17998 : ℚ) / 5) = 3600 := by
      have h : roundHalfEven ((17998 : ℚ) / 5) = 3599 + 1 := by
        apply roundHalfEven_of_floor_up _ 3599
        · norm_num
        · norm_num
        · norm_num
      rw [h]
      rfl
    simp only [_format_seconds]
    rw [if_neg (by norm_num : ¬ ((17998 : ℚ) / 5 < 1)),
      if_neg (by norm_num : ¬ ((17998 : ℚ) / 5 < 60)), hr]
    rfl

theorem sortRat_C7 : sortRat [1, 1, 1, 1, 100] = [1, 1, 1, 1, 100] := by
  norm_num [sortRat, List.insertionSort, List.orderedInsert]

theorem qlow_C7 : quantile [1, 1, 1, 1, 100] (1 / 4) = 1 := by
  simp only [quantile, sortRat_C7]
  norm_num [List.getD]

theorem qhigh_C7 : quantile [1, 1, 1, 1, 100] (3 / 4) = 1 := by
  simp only [quantile, sortRat_C7]
  norm_num [List.getD]
  rfl

/-- C7: with outlier exclusion on, the kept aggregates are exactly those whose
average latency lies inside the fences [Q1 - 1.5·IQR, Q3 + 1.5·IQR] computed
by linear-interpolation quantiles over all aggregates, and the removed count
is the number dropped; on average latencies [1, 1, 1, 1, 100] the aggregate
with value 100 is removed and removed_count is 1. -/
theorem claim_C7_iqr_exclusion :
    (∀ aggs : List ThreadAgg,
      (∀ a : ThreadAgg, a ∈ (iqrFilter aggs).1 ↔ a ∈ aggs
          ∧ iqrLower (aggs.map (fun x => x.avg_latency_seconds)) ≤ a.avg_latency_seconds
          ∧ a.avg_latency_seconds ≤ iqrUpper (aggs.map (fun x => x.avg_latency_seconds)))
      ∧ (iqrFilter aggs).2 = (aggs.filter (fun a =>
          !(decide (iqrLower (aggs.map (fun x => x.avg_latency_seconds))
              ≤ a.avg_latency_seconds)
            && decide (a.avg_latency_seconds
              ≤ iqrUpper (aggs.map (fun x => x.avg_latency_seconds)))))).length)
    ∧ iqrFilter aggsC7 = ([⟨"A", 2, 1⟩, ⟨"B", 3, 1⟩, ⟨"C", 4, 1⟩, ⟨"D", 5, 1⟩], 1) := by
  constructor
  · intro aggs
    rcases haggs : aggs with _ | ⟨a0, rest⟩
    · constructor
      · intro a
        simp [iqrFilter]
      · simp [iqrFilter]
    · rw [← haggs]
      have hne : aggs.isEmpty = false := by
        rw [haggs]
        rfl
      constructor
      · intro a
        simp only [iqrFilter, hne, Bool.false_eq_true, if_false, iqrLower, iqrUpper,
          List.mem_filter, Bool.and_eq_true, decide_eq_true_eq]
      · simp only [iqrFilter, hne, Bool.false_eq_true, if_false, iqrLower, iqrUpper]
  · have hvals : aggsC7.map (fun a => a.avg_latency_seconds) = [1, 1, 1, 1, 100] := by
      simp [aggsC7]
    simp only [iqrFilter, hvals, qlow_C7, qhigh_C7]
    norm_num [aggsC7, List.filter]

/-- C8 (amended): when zero correlation points survive the function returns an
explicit early sentinel (the empty-frame return or the all-outliers return),
but with exactly one surviving point the correlation is computed anyway and is
NaN — displayed, not replaced by a sentinel. -/
theorem claim_C8_correlation_amended :
    (∀ (perThread : List ThreadAgg) (excl : Bool),
      perThread = [] → correlationStep perThread excl = .noThreads)
    ∧ (∀ perThread : List ThreadAgg, perThread ≠ [] →
      (iqrFilter perThread).1 = [] → correlationStep perThread true = .allOutliers)
    ∧ (∀ (perThread : List ThreadAgg) (excl : Bool) (a : ThreadAgg),
      (if excl then iqrFilter perThread else (perThread, 0)).1 = [a] →
      correlationStep perThread excl
        = .shown (if excl then iqrFilter perThread else (perThread, 0)).2 [a] true) := by
  refine ⟨?_, ?_, ?_⟩
  · intro perThread excl h
    subst h
    rcases excl with _ | _
    · rfl
    · rfl
  · intro perThread hne hiqr
    unfold correlationStep
    rw [if_neg (by simp [List.isEmpty_iff, hne])]
    simp only [if_true, hiqr]
    rfl
  · intro perThread excl a hsur
    have hne : perThread ≠ [] := by
      intro h
      subst h
      rcases excl with _ | _
      · simp at hsur
      · simp [iqrFilter] at hsur
    unfold correlationStep
    rw [if_neg (by simp [List.isEmpty_iff, hne])]
    simp only [hsur]
    have hnan : pearsonIsNaN ([a].map
        (fun x => ((x.messages_count : ℚ), x.avg_latency_seconds))) = true := rfl
    rw [hnan]
    rfl

/-- C8 counterexample: a single per-thread point is not short-circuited — the
outcome is the shown branch carrying a NaN correlation, not one of the
sentinels. -/
theorem claim_C8_correlation_counterexample :
    correlationStep [aggC8] false = .shown 0 [aggC8] true
      ∧ CorrOutcome.shown 0 [aggC8] true ≠ .noThreads
      ∧ CorrOutcome.shown 0 [aggC8] true ≠ .allOutliers :=
  ⟨by rfl, fun h => CorrOutcome.noConfusion h, fun h => CorrOutcome.noConfusion h⟩

/-- Witness for the amended C8 at a single surviving point. -/
theorem claim_C8_correlation_amended_witness :
    correlationStep [aggC8] false
      = .shown (if false then iqrFilter [aggC8] else ([aggC8], 0)).2 [aggC8] true :=
  claim_C8_correlation_amended.2.2 [aggC8] false aggC8 rfl
